import Mathlib

/-!
Verification development for the `canvas-writer` repository (src/index.js).

The core of the library is the `CanvasWriter` class: a vertical cursor
(`this.line`), an ordered log of written lines (`this.texts`), and a family of
write operations that all funnel into the single-line primitive `writeText`.
Text measurement and drawing are delegated to an external 2D canvas context;
here they are abstracted as a measurement function parameter and an explicit
trace of draw calls.

Numbers are modelled as integers (`Int`): the source only adds and compares
the measured metrics, offsets, spacing and stroke widths, so exact integer
arithmetic is a faithful shallow embedding of the floating-point values for
every claim considered here.

Strings are modelled as `List Char`; `splitSp`/`joinSp` mirror JavaScript
`String.prototype.split(' ')` and `Array.prototype.join(' ')` for the
single-character separator used by the source.
-/

/-- JavaScript `text.split(sep)` for a single-character separator:
`"" ↦ [""]`, and consecutive separators produce empty fragments. -/
def splitCh (sep : Char) : List Char → List (List Char)
  | [] => [[]]
  | c :: cs =>
    if c = sep then [] :: splitCh sep cs
    else
      match splitCh sep cs with
      | [] => [[c]]
      | v :: vs => (c :: v) :: vs

/-- JavaScript `parts.join(sep)` for a single-character separator. -/
def joinCh (sep : Char) : List (List Char) → List Char
  | [] => []
  | [v] => v
  | v :: v' :: vs => v ++ sep :: joinCh sep (v' :: vs)

/-- Split on a space, as in `text.split(' ')` of `writeWordWrapped`. -/
def splitSp : List Char → List (List Char) := splitCh ' '

/-- Join with a space, as in `words.join(' ')` of `writeWordWrapped`. -/
def joinSp : List (List Char) → List Char := joinCh ' '

/-- JavaScript `text.slice(start)` for a possibly negative `start`
(negative values index from the end, clamped at the start of the string).
`writeWrapped` and `writeWordWrapped` call it as `text.slice(-j + 1)`. -/
def jsSliceFrom (text : List Char) (start : Int) : List Char :=
  if start < 0 then text.drop (max (text.length + start) 0).toNat
  else text.drop start.toNat

/-- The greedy shrink loop shared by `writeWrapped.reduceToFit` and
`writeWordWrapped.reduceToFit` (src/index.js lines 155-158 and 207-210):

`while (measureText(section).width > maxWidth && section.length > 1) {
  section = section.slice(0, -1); j += 1; }`

The loop drops one trailing character per iteration, so it runs at most
`section.length` times; the counter of `shrinkAux` is that bound and never
runs out before the loop guard fails. -/
def shrinkAux (w : List Char → Int) (maxW : Int) :
    Nat → List Char → Nat → List Char × Nat
  | 0, sect, j => (sect, j)
  | n + 1, sect, j =>
    if w sect > maxW ∧ 1 < sect.length then
      shrinkAux w maxW n sect.dropLast (j + 1)
    else (sect, j)

/-- Entry point of the shrink loop: `section = text; j = 1`. -/
def shrink (w : List Char → Int) (maxW : Int) (text : List Char) :
    List Char × Nat :=
  shrinkAux w maxW text.length text 1

/-- The recursive hard-wrap splitter `reduceToFit` of `writeWrapped`
(src/index.js lines 148-165), with explicit fuel because the source
recursion `reduceToFit(text.slice(-j + 1))` does not always terminate:
when the shrink loop removes no character (`j` stays `1`) the recursive
call receives `text.slice(0)`, the whole text, again.  The returned list
is the `results` array in push order; `none` means the recursion did not
finish within `fuel` steps. -/
def reduceToFitFuel (w : List Char → Int) (maxW : Int) :
    Nat → List Char → Option (List (List Char))
  | 0, _ => none
  | fuel + 1, text =>
    if w text > maxW then
      let p := shrink w maxW text
      match reduceToFitFuel w maxW fuel (jsSliceFrom text (-(p.2 : Int) + 1)) with
      | none => none
      | some rest => some (p.1 :: rest)
    else some [text]

/-- Exit status of the word-popping loop inside `writeWordWrapped.splitToFit`
(src/index.js lines 229-236). -/
inductive LoopExit where
  | emit (sect rem : List (List Char))
  | hard (word : List Char) (rem : List (List Char))
deriving DecidableEq, Repr

/-- The word-popping loop of `splitToFit`:

`while (measureText(section.join(' ')).width > maxWidth
        && section.join(' ').length > 1) {
   if (section.length === 1) { ... reduceToFit ... }
   remainder.splice(0, 0, section.pop()); }`

Each iteration pops the last word of `section`, so `section.length` bounds
the number of iterations; the counter never runs out before the guard
fails (at length 0 the guard `section.join(' ').length > 1` is false). -/
def splitLoopAux (w : List Char → Int) (maxW : Int) :
    Nat → List (List Char) → List (List Char) → LoopExit
  | 0, sect, rem => LoopExit.emit sect rem
  | n + 1, sect, rem =>
    if w (joinSp sect) > maxW ∧ 1 < (joinSp sect).length then
      if sect.length = 1 then LoopExit.hard (joinSp sect) rem
      else splitLoopAux w maxW n sect.dropLast (sect.getLastD [] :: rem)
    else LoopExit.emit sect rem

/-- Entry point of the word-popping loop: `section = words; remainder = []`. -/
def splitLoop (w : List Char → Int) (maxW : Int) (words : List (List Char)) :
    LoopExit :=
  splitLoopAux w maxW words.length words []

/-- The word-wrap splitter `splitToFit` of `writeWordWrapped`
(src/index.js lines 219-243), with explicit fuel for the recursion on the
remainder.  The returned list is the `results` array in push order.  The
non-recursive `reduceToFit` of `writeWordWrapped` (lines 200-217) pushes
the shrunk prefix and returns the leftover `text.slice(-j + 1)`; here it is
inlined through `shrink` and `jsSliceFrom`. -/
def splitToFitFuel (w : List Char → Int) (maxW : Int) :
    Nat → List Char → Option (List (List Char))
  | 0, _ => none
  | fuel + 1, text =>
    if text = [] then some []
    else
      let words := splitSp text
      if w (joinSp words) > maxW then
        match splitLoop w maxW words with
        | LoopExit.emit sect rem =>
          match splitToFitFuel w maxW fuel (joinSp rem) with
          | none => none
          | some rest => some (joinSp sect :: rest)
        | LoopExit.hard word rem =>
          let p := shrink w maxW word
          let extra := jsSliceFrom word (-(p.2 : Int) + 1)
          match splitToFitFuel w maxW fuel (extra ++ ' ' :: joinSp rem) with
          | none => none
          | some rest => some (p.1 :: rest)
      else some [text]

/-- Font metrics returned by the external `ctx.measureText`, restricted to
the four fields the source reads. -/
structure Metrics where
  width : Int
  actualBoundingBoxLeft : Int
  actualBoundingBoxAscent : Int
  emHeightDescent : Int
deriving DecidableEq, Repr

/-- Abstract measurement capability of the drawing surface: metrics of a
text under a font specification (the context font set just before
`measureText` is called). -/
def MeasureFn : Type := String → List Char → Metrics

/-- WriteOptions recognized by `writeText`; absent keys are `none`
(JavaScript `undefined`).  Shadow fields are carried for record fidelity
but have no effect on the modelled observables. -/
structure WriteOptions where
  x : Option Int := none
  y : Option Int := none
  spacing : Option Int := none
  font : Option String := none
  style : Option String := none
  align : Option String := none
  maxLines : Option Int := none
  shadowColor : Option String := none
  shadowX : Option Int := none
  shadowY : Option Int := none
  shadowBlur : Option Int := none
deriving DecidableEq, Repr

/-- StrokeOptions recognized by `writeText`. -/
structure StrokeOptions where
  style : Option String := none
  width : Option Int := none
  join : Option String := none
deriving DecidableEq, Repr

/-- JavaScript `v || d` for a numeric option: `undefined` and `0` fall back
to the default. -/
def jsOrI (v : Option Int) (d : Int) : Int :=
  match v with
  | none => d
  | some x => if x = 0 then d else x

/-- JavaScript `v || d` for a string option: `undefined` and `""` fall back
to the default. -/
def jsOrS (v : Option String) (d : String) : String :=
  match v with
  | none => d
  | some s => if s = "" then d else s

/-- JavaScript truthiness of an optional string (`undefined` and `""` are
falsy), as used by the stroke-activation test in `writeText`. -/
def truthyS (v : Option String) : Bool :=
  match v with
  | none => false
  | some s => s ≠ ""

/-- JavaScript truthiness of an optional number (`undefined` and `0` are
falsy). -/
def truthyI (v : Option Int) : Bool :=
  match v with
  | none => false
  | some x => x ≠ 0

/-- Canvas `ctx.lineWidth` setter contract (external collaborator): an
assigned positive finite value takes effect, every other assignment
(including `undefined`, zero and negatives) is ignored and the previous
value is kept. -/
def setLineWidth (old : Int) (v : Option Int) : Int :=
  match v with
  | none => old
  | some x => if 0 < x then x else old

/-- Alignment values accepted by the canvas `ctx.textAlign` setter. -/
def validAligns : List String := ["start", "end", "left", "right", "center"]

/-- Canvas `ctx.textAlign` setter contract (external collaborator): a
valid alignment keyword takes effect, any other string is ignored and the
previous value is kept. -/
def setTextAlign (old v : String) : String :=
  if v ∈ validAligns then v else old

/-- One record of `this.texts`: the pushed object
`{text, xSpace, ySpace, options, strokeOptions}`. -/
structure LineRec where
  text : List Char
  xSpace : Int
  ySpace : Int
  options : WriteOptions
  strokeOptions : StrokeOptions
deriving DecidableEq, Repr

/-- State of a `CanvasWriter`: vertical cursor `this.line`, the log
`this.texts`, the persisted canvas-context stroke state that `writeText`
reads back (`ctx.lineWidth`, `ctx.textAlign`), and the immutable canvas
dimensions. -/
structure CanvasWriter where
  line : Int
  texts : List LineRec
  ctxLineWidth : Int
  ctxTextAlign : String
  cw : Int
  ch : Int
deriving DecidableEq, Repr

/-- A freshly constructed `CanvasWriter` over a canvas of the given size:
cursor 0, empty log, default 2D-context stroke state. -/
def initialWriter (cw ch : Int) : CanvasWriter :=
  { line := 0, texts := [], ctxLineWidth := 1, ctxTextAlign := "start",
    cw := cw, ch := ch }

/-- Draw calls issued to the canvas context, in issue order. -/
inductive Draw where
  | strokeText (text : List Char) (x y : Int)
  | fillText (text : List Char) (x y : Int)
  | fillRect (x y width height : Int) (style : String)
  | drawImage (x y width height : Int)
deriving DecidableEq, Repr

/-- The single-line primitive `writeText` (src/index.js lines 70-119).
Returns the updated writer and the draw calls issued.  The maxLines guard
precedes every option read; the no-stroke path ends in `ctx.restore()`, so
it leaves the persisted context state untouched, while the stroke path
returns without restoring and keeps the assigned `lineWidth`/`textAlign`. -/
def writeText (m : MeasureFn) (s : CanvasWriter) (text : List Char)
    (o : WriteOptions) (so : StrokeOptions) : CanvasWriter × List Draw :=
  let maxLines := jsOrI o.maxLines 0
  if (s.texts.length : Int) ≥ maxLines ∧ maxLines > 0 then (s, [])
  else
    let offsetX := jsOrI o.x 5
    let offsetY := jsOrI o.y 5
    let spacing := if s.line = 0 then 0 else jsOrI o.spacing 0
    let font := jsOrS o.font "16px serif"
    let alignUsed := setTextAlign s.ctxTextAlign (jsOrS o.align "start")
    let lw := setLineWidth s.ctxLineWidth so.width
    let met := m font text
    if truthyS so.style ∨ truthyI so.width ∨ truthyS so.join then
      let xSpace := (if alignUsed = "center" then 0
                     else met.actualBoundingBoxLeft + lw) + offsetX
      let ySpace := s.line + met.actualBoundingBoxAscent + lw + spacing + offsetY
      ({ line := s.line + met.actualBoundingBoxAscent + met.emHeightDescent
                 + lw + spacing,
         texts := s.texts ++ [⟨text, xSpace, ySpace, o, so⟩],
         ctxLineWidth := lw, ctxTextAlign := alignUsed,
         cw := s.cw, ch := s.ch },
       [Draw.strokeText text xSpace ySpace, Draw.fillText text xSpace ySpace])
    else
      let xSpace := (if alignUsed = "center" then 0
                     else met.actualBoundingBoxLeft) + offsetX
      let ySpace := s.line + met.actualBoundingBoxAscent + spacing + offsetY
      ({ line := s.line + met.actualBoundingBoxAscent + met.emHeightDescent
                 + spacing,
         texts := s.texts ++ [⟨text, xSpace, ySpace, o, so⟩],
         ctxLineWidth := s.ctxLineWidth, ctxTextAlign := s.ctxTextAlign,
         cw := s.cw, ch := s.ch },
       [Draw.fillText text xSpace ySpace])

/-- One iteration of the `texts.forEach(t => this.writeText(...))` loop of
`writeLines`: apply `writeText` to the state and append the issued draw
calls to the trace. -/
def writeStep (m : MeasureFn) (o : WriteOptions) (so : StrokeOptions)
    (acc : CanvasWriter × List Draw) (t : List Char) : CanvasWriter × List Draw :=
  ((writeText m acc.1 t o so).1, acc.2 ++ (writeText m acc.1 t o so).2)

/-- The multi-line writer `writeLines` on a pre-split sequence
(src/index.js lines 128-134): one `writeText` per line, in order. -/
def writeLines (m : MeasureFn) (s : CanvasWriter) (lines : List (List Char))
    (o : WriteOptions) (so : StrokeOptions) : CanvasWriter × List Draw :=
  lines.foldl (writeStep m o so) (s, [])

/-- The hard-wrap writer `writeWrapped` (src/index.js lines 144-170):
split the text with `reduceToFit` under the option font, then write the
resulting lines.  `none` when the source recursion does not finish within
`fuel` steps. -/
def writeWrappedFuel (m : MeasureFn) (fuel : Nat) (s : CanvasWriter)
    (text : List Char) (maxW : Int) (o : WriteOptions) (so : StrokeOptions) :
    Option (CanvasWriter × List Draw) :=
  let w := fun t => (m (jsOrS o.font "16px serif") t).width
  match reduceToFitFuel w maxW fuel text with
  | none => none
  | some results => some (writeLines m s results o so)

/-- The word-wrap writer `writeWordWrapped` (src/index.js lines 196-248):
split the text with `splitToFit` under the option font, then write the
resulting lines. -/
def writeWordWrappedFuel (m : MeasureFn) (fuel : Nat) (s : CanvasWriter)
    (text : List Char) (maxW : Int) (o : WriteOptions) (so : StrokeOptions) :
    Option (CanvasWriter × List Draw) :=
  let w := fun t => (m (jsOrS o.font "16px serif") t).width
  match splitToFitFuel w maxW fuel text with
  | none => none
  | some results => some (writeLines m s results o so)

/-- The background fill `drawBackground` (src/index.js lines 40-48): a
saved/restored context mutation and one `fillRect` over the whole canvas;
the writer state is untouched. -/
def drawBackground (s : CanvasWriter) (style : String) : CanvasWriter × List Draw :=
  (s, [Draw.fillRect 0 0 s.cw s.ch style])

/-- The background image `drawBackgroundImage` (src/index.js lines 55-61):
one `drawImage` over the whole canvas; the writer state is untouched. -/
def drawBackgroundImage (s : CanvasWriter) : CanvasWriter × List Draw :=
  (s, [Draw.drawImage 0 0 s.cw s.ch])

/-- The replay operation `cloneFrom` (src/index.js lines 293-301): take a
snapshot `srcTexts.slice(0, limit)` of the source writer's log and replay
each record through `writeText` with its original text and options.  When
the caller clones a writer from itself, JavaScript evaluates the snapshot
first and then appends to the same log, which is exactly
`cloneFrom m a a.texts limit`.  `cloneStep` is one iteration of its
`toClone.forEach(...)` loop (the fourth argument `t.shadowOptions` passed by
the source is ignored by `writeText`, which takes three parameters). -/
def cloneStep (m : MeasureFn) (acc : CanvasWriter × List Draw)
    (t : LineRec) : CanvasWriter × List Draw :=
  ((writeText m acc.1 t.text t.options t.strokeOptions).1,
   acc.2 ++ (writeText m acc.1 t.text t.options t.strokeOptions).2)

/-- The replay operation itself: snapshot, then fold the replay loop. -/
def cloneFrom (m : MeasureFn) (dest : CanvasWriter) (srcTexts : List LineRec)
    (limit : Nat) : CanvasWriter × List Draw :=
  (srcTexts.take limit).foldl (cloneStep m) (dest, [])

/-- The fit check `isFitting` (src/index.js lines 283-285). -/
def isFitting (s : CanvasWriter) : Bool :=
  s.line < s.ch

/-- The `toString` override (src/index.js lines 352-354):
`this.texts.map(t => t.text).join('\n')`. -/
def wToString (s : CanvasWriter) : List Char :=
  joinCh '\n' (s.texts.map LineRec.text)

/-- Operations of a writer's lifetime.  The `Lines` variants of the API
(`writeWrappedLines`, `writeWordWrappedLines`, `write`) iterate the single
operations below over a pre-split list, so every API lifetime is a list of
these operations.  The wrap operations carry the fuel of their splitting
recursion. -/
inductive Op where
  | write (text : List Char) (o : WriteOptions) (so : StrokeOptions)
  | writeLines (lines : List (List Char)) (o : WriteOptions) (so : StrokeOptions)
  | wrapped (fuel : Nat) (text : List Char) (maxW : Int)
      (o : WriteOptions) (so : StrokeOptions)
  | wordWrapped (fuel : Nat) (text : List Char) (maxW : Int)
      (o : WriteOptions) (so : StrokeOptions)
  | background (style : String)
  | backgroundImage
  | cloneFrom (srcTexts : List LineRec) (limit : Nat)
deriving DecidableEq, Repr

/-- Apply one operation to a writer. -/
def applyOp (m : MeasureFn) (op : Op) (s : CanvasWriter) :
    Option (CanvasWriter × List Draw) :=
  match op with
  | Op.write text o so => some (writeText m s text o so)
  | Op.writeLines lines o so => some (writeLines m s lines o so)
  | Op.wrapped fuel text maxW o so => writeWrappedFuel m fuel s text maxW o so
  | Op.wordWrapped fuel text maxW o so => writeWordWrappedFuel m fuel s text maxW o so
  | Op.background style => some (drawBackground s style)
  | Op.backgroundImage => some (drawBackgroundImage s)
  | Op.cloneFrom srcTexts limit => some (cloneFrom m s srcTexts limit)

/-- Run a sequence of operations, accumulating the draw trace. -/
def runOps (m : MeasureFn) : List Op → CanvasWriter → Option (CanvasWriter × List Draw)
  | [], s => some (s, [])
  | op :: ops, s =>
    match applyOp m op s with
    | none => none
    | some (s', d) =>
      match runOps m ops s' with
      | none => none
      | some (s'', d') => some (s'', d ++ d')

/-- Texts of the `fillText` calls of a draw trace, in issue order. -/
def fillTexts : List Draw → List (List Char)
  | [] => []
  | Draw.fillText t _ _ :: ds => t :: fillTexts ds
  | _ :: ds => fillTexts ds

/-! ### Toolkit: split/join lemmas -/

theorem splitCh_ne_nil (sep : Char) (s : List Char) : splitCh sep s ≠ [] := by
  induction s with
  | nil => simp [splitCh]
  | cons c cs ih =>
    simp only [splitCh]
    split
    · simp
    · rcases h : splitCh sep cs with _ | ⟨v, vs⟩ <;> simp

theorem joinCh_cons (sep : Char) (v : List Char) (ws : List (List Char))
    (h : ws ≠ []) : joinCh sep (v :: ws) = v ++ sep :: joinCh sep ws := by
  cases ws with
  | nil => exact absurd rfl h
  | cons v' vs => rfl

theorem joinCh_splitCh (sep : Char) (s : List Char) :
    joinCh sep (splitCh sep s) = s := by
  induction s with
  | nil => rfl
  | cons c cs ih =>
    simp only [splitCh]
    by_cases hc : c = sep
    · rw [if_pos hc, joinCh_cons sep [] _ (splitCh_ne_nil sep cs), ih, hc]
      rfl
    · rw [if_neg hc]
      rcases h : splitCh sep cs with _ | ⟨v, vs⟩
      · exact absurd h (splitCh_ne_nil sep cs)
      · rw [h] at ih
        cases vs with
        | nil =>
          simp only [joinCh] at ih ⊢
          rw [ih]
        | cons v' vs' =>
          rw [joinCh_cons sep v _ (by simp)] at ih
          rw [joinCh_cons sep (c :: v) _ (by simp), List.cons_append, ih]

theorem splitCh_no_sep (sep : Char) (v : List Char) (h : sep ∉ v) :
    splitCh sep v = [v] := by
  induction v with
  | nil => rfl
  | cons c cs ih =>
    have hc : ¬ c = sep := fun e => h (by simp [e])
    have hcs : sep ∉ cs := fun m => h (List.mem_cons_of_mem _ m)
    simp only [splitCh, if_neg hc, ih hcs]

theorem splitCh_append_sep (sep : Char) (v t : List Char) (h : sep ∉ v) :
    splitCh sep (v ++ sep :: t) = v :: splitCh sep t := by
  induction v with
  | nil => simp [splitCh]
  | cons c cs ih =>
    have hc : ¬ c = sep := fun e => h (by simp [e])
    have hcs : sep ∉ cs := fun m => h (List.mem_cons_of_mem _ m)
    show splitCh sep (c :: (cs ++ sep :: t)) = (c :: cs) :: splitCh sep t
    simp only [splitCh, if_neg hc]
    rw [ih hcs]

theorem splitCh_joinCh (sep : Char) (ws : List (List Char)) (hne : ws ≠ [])
    (h : ∀ u ∈ ws, sep ∉ u) : splitCh sep (joinCh sep ws) = ws := by
  induction ws with
  | nil => exact absurd rfl hne
  | cons v ws ih =>
    cases ws with
    | nil => exact splitCh_no_sep sep v (h v (by simp))
    | cons v' ws' =>
      rw [joinCh_cons sep v _ (by simp),
        splitCh_append_sep sep v _ (h v (by simp)),
        ih (by simp) (fun u hu => h u (List.mem_cons_of_mem _ hu))]

theorem mem_splitCh_not_sep (sep : Char) (s : List Char) :
    ∀ u ∈ splitCh sep s, sep ∉ u := by
  induction s with
  | nil => intro u hu; simp [splitCh] at hu; simp [hu]
  | cons c cs ih =>
    intro u hu
    by_cases hc : c = sep
    · simp only [splitCh, if_pos hc] at hu
      rcases List.mem_cons.mp hu with rfl | hu
      · simp
      · exact ih u hu
    · simp only [splitCh, if_neg hc] at hu
      cases hmatch : splitCh sep cs with
      | nil => exact absurd hmatch (splitCh_ne_nil sep cs)
      | cons v vs =>
        rw [hmatch] at hu
        have hv : sep ∉ v := ih v (by simp [hmatch])
        rcases List.mem_cons.mp hu with rfl | hu
        · intro hmem
          rcases List.mem_cons.mp hmem with he | hmem'
          · exact hc he.symm
          · exact hv hmem'
        · exact ih u (by simp [hmatch, hu])

theorem dropLast_append_getLastD {α : Type} (l : List α) (d : α) (h : l ≠ []) :
    l.dropLast ++ [l.getLastD d] = l := by
  induction l generalizing d with
  | nil => exact absurd rfl h
  | cons a l ih =>
    cases l with
    | nil => rfl
    | cons b l' =>
      rw [List.dropLast_cons₂, List.getLastD_cons, List.cons_append,
        ih a (by simp)]

/-! ### Concrete measurement functions used in counterexamples and
witnesses -/

/-- Width function assigning each character 2 units. -/
def wTwoPerChar (t : List Char) : Int := 2 * t.length

/-- Width function assigning each character 1 unit. -/
def wLen (t : List Char) : Int := t.length

/-- C1: the hard character-wrap splitting of `writeWrapped` does NOT
terminate for every input text and positive maxWidth.  With maxWidth 1 and
a single remaining character measuring 2, the shrink loop removes no
character, `j` stays 1, and the recursion continues on `text.slice(0)` —
the whole unshrunk text — so no amount of fuel finishes the recursion.
This contradicts the claimed one-character-minimum floor: the floor is
applied to the emitted section but not to the remainder. -/
theorem hardWrap_single_wide_char_diverges :
    (0 : Int) < 1 ∧ wTwoPerChar ['W'] > 1 ∧
    ∀ fuel : Nat, reduceToFitFuel wTwoPerChar 1 fuel ['W'] = none := by
  refine ⟨by decide, by decide, ?_⟩
  intro fuel
  induction fuel with
  | zero => rfl
  | succ n ih =>
    show (match reduceToFitFuel wTwoPerChar 1 n
            (jsSliceFrom ['W'] (-(((shrink wTwoPerChar 1 ['W']).2 : Int)) + 1)) with
          | none => none
          | some rest => some ((shrink wTwoPerChar 1 ['W']).1 :: rest)) = none
    have hs : jsSliceFrom ['W']
        (-(((shrink wTwoPerChar 1 ['W']).2 : Int)) + 1) = ['W'] := by decide
    rw [hs, ih]

/-- C2 counterexample: the empty text measures 0, less than maxWidth 5,
yet the word-wrap split of `writeWordWrapped` produces NO output line at
all (the `if (!text) return;` guard fires on the empty string), not one
line equal to the input. -/
theorem wordWrap_empty_text_yields_no_line :
    wLen [] < 5 ∧ splitToFitFuel wLen 5 1 [] = some [] ∧
    ([] : List (List Char)).length ≠ 1 :=
  ⟨by decide, rfl, by decide⟩

/-- C2 amended: for every text measured strictly narrower than maxWidth,
the hard-wrap split produces exactly one line equal to the input, and so
does the word-wrap split provided the text is non-empty (for the empty
text the word-wrap split produces no line). -/
theorem wrap_narrow_text_single_line (w : List Char → Int) (maxW : Int)
    (text : List Char) (fuel : Nat) (h : w text < maxW) :
    reduceToFitFuel w maxW (fuel + 1) text = some [text] ∧
    (text ≠ [] → splitToFitFuel w maxW (fuel + 1) text = some [text]) := by
  have hngt : ¬ w text > maxW := by omega
  constructor
  · simp [reduceToFitFuel, hngt]
  · intro hne
    have hj : joinSp (splitSp text) = text := joinCh_splitCh ' ' text
    simp only [splitToFitFuel, if_neg hne, hj]
    rw [if_neg hngt]

/-- Closed instance of `wrap_narrow_text_single_line`. -/
theorem wrap_narrow_text_single_line_witness :
    wLen "hi".toList < 5 ∧
    (reduceToFitFuel wLen 5 1 "hi".toList = some ["hi".toList] ∧
     ("hi".toList ≠ [] → splitToFitFuel wLen 5 1 "hi".toList = some ["hi".toList])) :=
  ⟨by decide, wrap_narrow_text_single_line wLen 5 "hi".toList 0 (by decide)⟩

/-! ### C3: word wrap splits only between whole words -/

/-- A contiguous run of elements inside a list: `ws = l ++ seg ++ r`. -/
def contiguousIn (seg ws : List (List Char)) : Prop :=
  ∃ l r, ws = l ++ (seg ++ r)

theorem splitLoopAux_all_fit (w : List Char → Int) (maxW : Int) :
    ∀ (n : Nat) (sect rem : List (List Char)), sect.length ≤ n →
    (∀ u ∈ sect, ¬ w u > maxW) →
    ∃ sect' rem',
      splitLoopAux w maxW n sect rem = LoopExit.emit sect' rem' ∧
      sect' ++ rem' = sect ++ rem ∧ (∃ t, sect' ++ t = sect) ∧
      (sect ≠ [] → sect' ≠ []) := by
  intro n
  induction n with
  | zero =>
    intro sect rem hle _
    have hnil : sect = [] := List.length_eq_zero.mp (Nat.le_zero.mp hle)
    subst hnil
    exact ⟨[], rem, rfl, rfl, ⟨[], rfl⟩, fun h => absurd rfl h⟩
  | succ n ih =>
    intro sect rem hle hfit
    by_cases hcond : w (joinSp sect) > maxW ∧ 1 < (joinSp sect).length
    · have hsne : sect ≠ [] := by
        intro e
        rw [e] at hcond
        simp [joinSp, joinCh] at hcond
      by_cases h1 : sect.length = 1
      · obtain ⟨u, hu⟩ := List.length_eq_one.mp h1
        exfalso
        apply hfit u (by simp [hu])
        have : joinSp [u] = u := rfl
        rw [hu, this] at hcond
        exact hcond.1
      · have hlen2 : 2 ≤ sect.length := by
          have h0 : sect.length ≠ 0 := fun e => hsne (List.length_eq_zero.mp e)
          omega
        obtain ⟨sect', rem', heq, happ, ⟨t, ht⟩, hne'⟩ :=
          ih sect.dropLast (sect.getLastD [] :: rem)
            (by rw [List.length_dropLast]; omega)
            (fun u hu => hfit u (List.dropLast_subset _ hu))
        refine ⟨sect', rem', ?_, ?_, ?_, ?_⟩
        · rw [splitLoopAux, if_pos hcond, if_neg h1]
          exact heq
        · rw [happ,
            show sect.getLastD [] :: rem = [sect.getLastD []] ++ rem from rfl,
            ← List.append_assoc, dropLast_append_getLastD sect [] hsne]
        · exact ⟨t ++ [sect.getLastD []], by
            rw [← List.append_assoc, ht, dropLast_append_getLastD sect [] hsne]⟩
        · intro _
          apply hne'
          intro e
          have := congrArg List.length e
          rw [List.length_dropLast] at this
          simp at this
          omega
    · refine ⟨sect, rem, ?_, rfl, ⟨[], by simp⟩, fun h => h⟩
      rw [splitLoopAux, if_neg hcond]

/-- C3 counterexample: with the single input word "WWWW" wider than
maxWidth 3 (unit character widths), the word-wrap split emits the line
"W " — a fragment of the split word plus a fabricated trailing space,
because the hard-wrap fallback recurses on
`extra + ' ' + remainder.join(' ')` even when the remainder is empty.
The input's word list is exactly ["WWWW"], and "W " is not the space-join
of any non-empty contiguous run of it; nor is "W " obtainable by
splitting the word "WWWW" at a character boundary, since the space it
contains occurs in no input word.  So not every emitted line is a
space-join of whole input words, even granting the claim's
oversized-word exception. -/
theorem wordWrap_oversized_word_fabricates_space :
    wLen "WWWW".toList > 3 ∧
    splitToFitFuel wLen 3 3 "WWWW".toList
      = some ["WWW".toList, "W ".toList] ∧
    splitSp "WWWW".toList = ["WWWW".toList] ∧
    (' ' ∈ "W ".toList ∧ ' ' ∉ "WWWW".toList) ∧
    ¬ (∃ seg, seg ≠ [] ∧ contiguousIn seg (splitSp "WWWW".toList) ∧
        "W ".toList = joinSp seg) := by
  refine ⟨by decide, by decide, by decide, ⟨by decide, by decide⟩, ?_⟩
  rintro ⟨seg, hne, ⟨l, r, hlr⟩, heq⟩
  have hws : splitSp "WWWW".toList = ["WWWW".toList] := by decide
  rw [hws] at hlr
  have h1 : 1 = l.length + (seg.length + r.length) := by
    simpa using congrArg List.length hlr
  have hsegpos : 0 < seg.length := List.length_pos.mpr hne
  have hl0 : l.length = 0 := by omega
  have hr0 : r.length = 0 := by omega
  have hseg1 : seg.length = 1 := by omega
  obtain rfl := List.length_eq_zero.mp hl0
  obtain rfl := List.length_eq_zero.mp hr0
  obtain ⟨y, rfl⟩ := List.length_eq_one.mp hseg1
  simp only [List.nil_append, List.append_nil] at hlr
  have hy : y = "WWWW".toList := by
    injection hlr with h _
    exact h.symm
  rw [hy] at heq
  exact absurd heq (by decide)

/-- C3 amended: the word-wrap split never breaks inside a word — every
emitted line is the space-join of a non-empty contiguous run of whole
input words — provided no single input word measures wider than maxWidth.
When some word alone exceeds maxWidth the code character-splits it, and
the re-joined recursion can emit lines that are not made of whole input
words and can even carry a fabricated trailing space absent from the
input (see the counterexample). -/
theorem wordWrap_splits_only_between_words (w : List Char → Int) (maxW : Int) :
    ∀ (fuel : Nat) (text : List Char) (res : List (List Char)),
    (∀ u ∈ splitSp text, ¬ w u > maxW) →
    splitToFitFuel w maxW fuel text = some res →
    ∀ line ∈ res, ∃ seg, seg ≠ [] ∧ contiguousIn seg (splitSp text) ∧
      line = joinSp seg := by
  intro fuel
  induction fuel with
  | zero =>
    intro text res _ h
    simp [splitToFitFuel] at h
  | succ n ih =>
    intro text res hfit h
    by_cases hnil : text = []
    · rw [splitToFitFuel, if_pos hnil] at h
      obtain rfl : ([] : List (List Char)) = res := by simpa using h
      intro line hline
      exact absurd hline (by simp)
    · rw [splitToFitFuel, if_neg hnil] at h
      by_cases hw : w (joinSp (splitSp text)) > maxW
      · rw [if_pos hw] at h
        have hwordsne : splitSp text ≠ [] := splitCh_ne_nil ' ' text
        obtain ⟨sect, rem, hloop, happ, ⟨t, ht⟩, hsne⟩ :=
          splitLoopAux_all_fit w maxW (splitSp text).length (splitSp text) []
            (le_refl _) hfit
        have hloop' : splitLoop w maxW (splitSp text) = LoopExit.emit sect rem := by
          rw [splitLoop]; exact hloop
        rw [List.append_nil] at happ
        rw [hloop'] at h
        have h2 : (match splitToFitFuel w maxW n (joinSp rem) with
                   | none => none
                   | some rest => some (joinSp sect :: rest)) = some res := h
        cases hrec : splitToFitFuel w maxW n (joinSp rem) with
        | none => rw [hrec] at h2; simp at h2
        | some rest =>
          rw [hrec] at h2
          have hres : res = joinSp sect :: rest := by simpa using h2.symm
          subst hres
          intro line hline
          rcases List.mem_cons.mp hline with rfl | hmem
          · exact ⟨sect, hsne hwordsne, ⟨[], rem, by rw [← happ]; rfl⟩, rfl⟩
          · by_cases hremnil : rem = []
            · subst hremnil
              have hrest : rest = [] := by
                cases n with
                | zero => simp [splitToFitFuel] at hrec
                | succ m =>
                  rw [show joinSp ([] : List (List Char)) = [] from rfl] at hrec
                  rw [splitToFitFuel, if_pos rfl] at hrec
                  simpa using hrec.symm
              subst hrest
              exact absurd hmem (by simp)
            · have hremsub : ∀ u ∈ rem, u ∈ splitSp text := by
                intro u hu
                rw [← happ]
                exact List.mem_append_right _ hu
              have hnosep : ∀ u ∈ rem, ' ' ∉ u := fun u hu =>
                mem_splitCh_not_sep ' ' text u (hremsub u hu)
              have hsplit' : splitSp (joinSp rem) = rem :=
                splitCh_joinCh ' ' rem hremnil hnosep
              have hfit' : ∀ u ∈ splitSp (joinSp rem), ¬ w u > maxW := by
                rw [hsplit']
                exact fun u hu => hfit u (hremsub u hu)
              obtain ⟨seg, hsegne, hcont, hline'⟩ :=
                ih (joinSp rem) rest hfit' hrec line hmem
              rw [hsplit'] at hcont
              obtain ⟨l, r, hlr⟩ := hcont
              exact ⟨seg, hsegne,
                ⟨sect ++ l, r, by rw [← happ, hlr, List.append_assoc]⟩, hline'⟩
      · rw [if_neg hw] at h
        have hres : res = [text] := by simpa using h.symm
        subst hres
        intro line hline
        have hlt : line = text := by simpa using hline
        exact ⟨splitSp text, splitCh_ne_nil ' ' text, ⟨[], [], by simp⟩,
          by rw [hlt]; exact (joinCh_splitCh ' ' text).symm⟩

/-- Closed instance of `wordWrap_splits_only_between_words` at the text
`"aa bb cc dd"` with unit character widths and maxWidth 5: the split is
`["aa bb", "cc dd"]` and each line is a join of whole input words. -/
theorem wordWrap_splits_only_between_words_witness :
    (∀ u ∈ splitSp "aa bb cc dd".toList, ¬ wLen u > 5) ∧
    (∀ line ∈ ["aa bb".toList, "cc dd".toList], ∃ seg, seg ≠ [] ∧
      contiguousIn seg (splitSp "aa bb cc dd".toList) ∧ line = joinSp seg) :=
  ⟨by decide,
   wordWrap_splits_only_between_words wLen 5 4 "aa bb cc dd".toList
     ["aa bb".toList, "cc dd".toList] (by decide) (by decide)⟩

/-! ### Toolkit: effects of one `writeText` call -/

theorem writeText_noop (m : MeasureFn) (s : CanvasWriter) (text : List Char)
    (o : WriteOptions) (so : StrokeOptions)
    (hn : (s.texts.length : Int) ≥ jsOrI o.maxLines 0 ∧ jsOrI o.maxLines 0 > 0) :
    writeText m s text o so = (s, []) := by
  simp only [writeText, if_pos hn]

theorem writeText_texts_map (m : MeasureFn) (s : CanvasWriter)
    (text : List Char) (o : WriteOptions) (so : StrokeOptions)
    (hn : ¬ ((s.texts.length : Int) ≥ jsOrI o.maxLines 0 ∧ jsOrI o.maxLines 0 > 0)) :
    (writeText m s text o so).1.texts.map LineRec.text
      = s.texts.map LineRec.text ++ [text] := by
  by_cases hstroke : truthyS so.style ∨ truthyI so.width ∨ truthyS so.join
  · simp [writeText, if_neg hn, if_pos hstroke]
  · simp [writeText, if_neg hn, if_neg hstroke]

theorem writeText_texts_length (m : MeasureFn) (s : CanvasWriter)
    (text : List Char) (o : WriteOptions) (so : StrokeOptions)
    (hn : ¬ ((s.texts.length : Int) ≥ jsOrI o.maxLines 0 ∧ jsOrI o.maxLines 0 > 0)) :
    (writeText m s text o so).1.texts.length = s.texts.length + 1 := by
  have h := writeText_texts_map m s text o so hn
  have h2 := congrArg List.length h
  simpa using h2

theorem writeText_fillTexts (m : MeasureFn) (s : CanvasWriter)
    (text : List Char) (o : WriteOptions) (so : StrokeOptions)
    (hn : ¬ ((s.texts.length : Int) ≥ jsOrI o.maxLines 0 ∧ jsOrI o.maxLines 0 > 0)) :
    fillTexts (writeText m s text o so).2 = [text] := by
  by_cases hstroke : truthyS so.style ∨ truthyI so.width ∨ truthyS so.join
  · simp [writeText, if_neg hn, if_pos hstroke, fillTexts]
  · simp [writeText, if_neg hn, if_neg hstroke, fillTexts]

theorem writeText_line_eq (m : MeasureFn) (s : CanvasWriter)
    (text : List Char) (o : WriteOptions) (so : StrokeOptions)
    (hn : ¬ ((s.texts.length : Int) ≥ jsOrI o.maxLines 0 ∧ jsOrI o.maxLines 0 > 0)) :
    (writeText m s text o so).1.line = s.line +
      (m (jsOrS o.font "16px serif") text).actualBoundingBoxAscent +
      (m (jsOrS o.font "16px serif") text).emHeightDescent +
      (if truthyS so.style ∨ truthyI so.width ∨ truthyS so.join then
        setLineWidth s.ctxLineWidth so.width else 0) +
      (if s.line = 0 then 0 else jsOrI o.spacing 0) := by
  by_cases hstroke : truthyS so.style ∨ truthyI so.width ∨ truthyS so.join
  · simp only [writeText, if_neg hn, if_pos hstroke]
  · simp only [writeText, if_neg hn, if_neg hstroke]
    ring

theorem writeText_ctxLineWidth (m : MeasureFn) (s : CanvasWriter)
    (text : List Char) (o : WriteOptions) (so : StrokeOptions) :
    (writeText m s text o so).1.ctxLineWidth = s.ctxLineWidth ∨
    (writeText m s text o so).1.ctxLineWidth = setLineWidth s.ctxLineWidth so.width := by
  by_cases hn : (s.texts.length : Int) ≥ jsOrI o.maxLines 0 ∧ jsOrI o.maxLines 0 > 0
  · left
    rw [writeText_noop m s text o so hn]
  · by_cases hstroke : truthyS so.style ∨ truthyI so.width ∨ truthyS so.join
    · right
      simp [writeText, if_neg hn, if_pos hstroke]
    · left
      simp [writeText, if_neg hn, if_neg hstroke]

theorem setLineWidth_pos (old : Int) (v : Option Int) (h : 0 < old) :
    0 < setLineWidth old v := by
  cases v with
  | none => exact h
  | some x =>
    by_cases hx : 0 < x
    · simp [setLineWidth, hx]
    · simpa [setLineWidth, hx] using h

/-! ### C4, C9, C6 -/

/-- Constant measurement function used by the closed witnesses: every text
measures width 3, left bearing 1, ascent 2, em descent 1. -/
def mConst : MeasureFn := fun _ _ => ⟨3, 1, 2, 1⟩

/-- A writer with exactly one recorded line. -/
def w4 : CanvasWriter := (writeText mConst (initialWriter 100 100) ['a'] {} {}).1

/-- C4: for a positive K passed as options.maxLines, once the recorded
line count has reached K, a further writeText call with those options is
a no-op: the writer is returned unchanged (log length and cursor
included) and no draw call is issued. -/
theorem writeText_maxLines_noop_after_cap (m : MeasureFn) (s : CanvasWriter)
    (text : List Char) (o : WriteOptions) (so : StrokeOptions) (K : Int)
    (hK : o.maxLines = some K) (hpos : 0 < K)
    (hreached : K ≤ (s.texts.length : Int)) :
    writeText m s text o so = (s, []) ∧
    (writeText m s text o so).1.texts.length = s.texts.length ∧
    (writeText m s text o so).1.line = s.line ∧
    (writeText m s text o so).2 = [] := by
  have hml : jsOrI o.maxLines 0 = K := by
    rw [hK]
    simp only [jsOrI]
    rw [if_neg (by omega : ¬ K = 0)]
  have h := writeText_noop m s text o so (by rw [hml]; exact ⟨hreached, hpos⟩)
  exact ⟨h, by rw [h], by rw [h], by rw [h]⟩

/-- Closed instance of `writeText_maxLines_noop_after_cap`: a writer with
one recorded line and maxLines 1 ignores the next write. -/
theorem writeText_maxLines_noop_after_cap_witness :
    (({ maxLines := some 1 } : WriteOptions).maxLines = some 1 ∧ (0 : Int) < 1 ∧
      (1 : Int) ≤ (w4.texts.length : Int)) ∧
    (writeText mConst w4 ['b'] { maxLines := some 1 } {} = (w4, []) ∧
     (writeText mConst w4 ['b'] { maxLines := some 1 } {}).1.texts.length
       = w4.texts.length ∧
     (writeText mConst w4 ['b'] { maxLines := some 1 } {}).1.line = w4.line ∧
     (writeText mConst w4 ['b'] { maxLines := some 1 } {}).2 = []) :=
  ⟨⟨rfl, by decide, by decide⟩,
   writeText_maxLines_noop_after_cap mConst w4 ['b'] { maxLines := some 1 } {} 1
     rfl (by decide) (by decide)⟩

/-- C9: drawBackground and drawBackgroundImage leave the writer state —
cursor, log, and persisted context state — unchanged for every style
argument; only the draw trace records the issued fill or image call. -/
theorem background_ops_preserve_writer (s : CanvasWriter) (style : String) :
    (drawBackground s style).1 = s ∧ (drawBackgroundImage s).1 = s ∧
    (drawBackground s style).1.line = s.line ∧
    (drawBackground s style).1.texts = s.texts ∧
    (drawBackgroundImage s).1.line = s.line ∧
    (drawBackgroundImage s).1.texts = s.texts :=
  ⟨rfl, rfl, rfl, rfl, rfl, rfl⟩

/-- C6 counterexample: with strokeOptions `{width: 0}` a stroke option is
present, yet writeText takes the fill-only path (JavaScript truthiness:
`0` is falsy), issues no strokeText call, and the cursor advances without
any stroke width: the claim is false as stated for a present stroke
option with a falsy value. -/
theorem writeText_present_zero_width_no_stroke :
    ({ width := some 0 } : StrokeOptions).width = some 0 ∧
    (writeText mConst (initialWriter 100 100) ['a'] {} { width := some 0 }).2
      = [Draw.fillText ['a'] 6 7] ∧
    (writeText mConst (initialWriter 100 100) ['a'] {} { width := some 0 }).1.line
      = 3 :=
  ⟨rfl, by decide, by decide⟩

/-- C6 amended: whenever any of the three stroke options is present with
a truthy value (non-empty style or join string, non-zero width) and the
maxLines cap does not suppress the write, writeText draws the stroke
before the fill at the same coordinates
x = offsetX + (0 if the effective align is center, else leftBearing + lw)
and y = cursor + ascent + lw + spacing + offsetY, and advances the cursor
by ascent + descent + lw + spacing, where lw is the effective context
stroke line width: the width option when positive, otherwise the
context's previous line width (the canvas setter ignores other values). -/
theorem writeText_stroke_layout (m : MeasureFn) (s : CanvasWriter)
    (text : List Char) (o : WriteOptions) (so : StrokeOptions)
    (hstroke : truthyS so.style ∨ truthyI so.width ∨ truthyS so.join)
    (hn : ¬ ((s.texts.length : Int) ≥ jsOrI o.maxLines 0 ∧ jsOrI o.maxLines 0 > 0)) :
    (writeText m s text o so).2 =
      [Draw.strokeText text
        (jsOrI o.x 5 +
          (if setTextAlign s.ctxTextAlign (jsOrS o.align "start") = "center" then 0
           else (m (jsOrS o.font "16px serif") text).actualBoundingBoxLeft +
             setLineWidth s.ctxLineWidth so.width))
        (s.line + (m (jsOrS o.font "16px serif") text).actualBoundingBoxAscent +
          setLineWidth s.ctxLineWidth so.width +
          (if s.line = 0 then 0 else jsOrI o.spacing 0) + jsOrI o.y 5),
       Draw.fillText text
        (jsOrI o.x 5 +
          (if setTextAlign s.ctxTextAlign (jsOrS o.align "start") = "center" then 0
           else (m (jsOrS o.font "16px serif") text).actualBoundingBoxLeft +
             setLineWidth s.ctxLineWidth so.width))
        (s.line + (m (jsOrS o.font "16px serif") text).actualBoundingBoxAscent +
          setLineWidth s.ctxLineWidth so.width +
          (if s.line = 0 then 0 else jsOrI o.spacing 0) + jsOrI o.y 5)] ∧
    (writeText m s text o so).1.line =
      s.line + (m (jsOrS o.font "16px serif") text).actualBoundingBoxAscent +
        (m (jsOrS o.font "16px serif") text).emHeightDescent +
        setLineWidth s.ctxLineWidth so.width +
        (if s.line = 0 then 0 else jsOrI o.spacing 0) := by
  refine ⟨?_, ?_⟩ <;> (simp only [writeText, if_neg hn, if_pos hstroke]; try ring_nf)

/-- Closed instance of `writeText_stroke_layout` with stroke width 2 on a
fresh writer. -/
theorem writeText_stroke_layout_witness :
    ((truthyS ({ style := some "red", width := some 2 } : StrokeOptions).style ∨
      truthyI ({ style := some "red", width := some 2 } : StrokeOptions).width ∨
      truthyS ({ style := some "red", width := some 2 } : StrokeOptions).join) ∧
     ¬ (((initialWriter 100 100).texts.length : Int) ≥ jsOrI (({} : WriteOptions)).maxLines 0 ∧
        jsOrI (({} : WriteOptions)).maxLines 0 > 0)) ∧
    ((writeText mConst (initialWriter 100 100) ['a'] {}
        { style := some "red", width := some 2 }).2 =
      [Draw.strokeText ['a']
        (jsOrI ({} : WriteOptions).x 5 +
          (if setTextAlign (initialWriter 100 100).ctxTextAlign
              (jsOrS ({} : WriteOptions).align "start") = "center" then 0
           else (mConst (jsOrS ({} : WriteOptions).font "16px serif") ['a']).actualBoundingBoxLeft +
             setLineWidth (initialWriter 100 100).ctxLineWidth (some 2)))
        ((initialWriter 100 100).line +
          (mConst (jsOrS ({} : WriteOptions).font "16px serif") ['a']).actualBoundingBoxAscent +
          setLineWidth (initialWriter 100 100).ctxLineWidth (some 2) +
          (if (initialWriter 100 100).line = 0 then 0
           else jsOrI ({} : WriteOptions).spacing 0) + jsOrI ({} : WriteOptions).y 5),
       Draw.fillText ['a']
        (jsOrI ({} : WriteOptions).x 5 +
          (if setTextAlign (initialWriter 100 100).ctxTextAlign
              (jsOrS ({} : WriteOptions).align "start") = "center" then 0
           else (mConst (jsOrS ({} : WriteOptions).font "16px serif") ['a']).actualBoundingBoxLeft +
             setLineWidth (initialWriter 100 100).ctxLineWidth (some 2)))
        ((initialWriter 100 100).line +
          (mConst (jsOrS ({} : WriteOptions).font "16px serif") ['a']).actualBoundingBoxAscent +
          setLineWidth (initialWriter 100 100).ctxLineWidth (some 2) +
          (if (initialWriter 100 100).line = 0 then 0
           else jsOrI ({} : WriteOptions).spacing 0) + jsOrI ({} : WriteOptions).y 5)] ∧
     (writeText mConst (initialWriter 100 100) ['a'] {}
        { style := some "red", width := some 2 }).1.line =
      (initialWriter 100 100).line +
        (mConst (jsOrS ({} : WriteOptions).font "16px serif") ['a']).actualBoundingBoxAscent +
        (mConst (jsOrS ({} : WriteOptions).font "16px serif") ['a']).emHeightDescent +
        setLineWidth (initialWriter 100 100).ctxLineWidth (some 2) +
        (if (initialWriter 100 100).line = 0 then 0
         else jsOrI ({} : WriteOptions).spacing 0)) :=
  ⟨⟨by decide, by decide⟩,
   writeText_stroke_layout mConst (initialWriter 100 100) ['a'] {}
     { style := some "red", width := some 2 } (by decide) (by decide)⟩

/-! ### Toolkit: traces and monotonicity across operation folds -/

theorem fillTexts_append (d1 d2 : List Draw) :
    fillTexts (d1 ++ d2) = fillTexts d1 ++ fillTexts d2 := by
  induction d1 with
  | nil => rfl
  | cons x d1 ih => cases x <;> simp [fillTexts, ih]

theorem writeText_trace (m : MeasureFn) (s : CanvasWriter) (text : List Char)
    (o : WriteOptions) (so : StrokeOptions) :
    (writeText m s text o so).1.texts.map LineRec.text
      = s.texts.map LineRec.text ++ fillTexts (writeText m s text o so).2 := by
  by_cases hn : (s.texts.length : Int) ≥ jsOrI o.maxLines 0 ∧ jsOrI o.maxLines 0 > 0
  · rw [writeText_noop m s text o so hn]
    simp [fillTexts]
  · rw [writeText_texts_map m s text o so hn, writeText_fillTexts m s text o so hn]

theorem writeText_line_mono (m : MeasureFn) (s : CanvasWriter)
    (text : List Char) (o : WriteOptions) (so : StrokeOptions)
    (hm : ∀ f t, 0 ≤ (m f t).actualBoundingBoxAscent ∧ 0 ≤ (m f t).emHeightDescent)
    (hsp : 0 ≤ jsOrI o.spacing 0) (hlw : 0 < s.ctxLineWidth) :
    s.line ≤ (writeText m s text o so).1.line ∧
    0 < (writeText m s text o so).1.ctxLineWidth := by
  constructor
  · by_cases hn : (s.texts.length : Int) ≥ jsOrI o.maxLines 0 ∧ jsOrI o.maxLines 0 > 0
    · rw [writeText_noop m s text o so hn]
    · rw [writeText_line_eq m s text o so hn]
      have h1 := (hm (jsOrS o.font "16px serif") text).1
      have h2 := (hm (jsOrS o.font "16px serif") text).2
      have h3 : (0 : Int) ≤ (if truthyS so.style ∨ truthyI so.width ∨ truthyS so.join
          then setLineWidth s.ctxLineWidth so.width else 0) := by
        split
        · exact le_of_lt (setLineWidth_pos _ _ hlw)
        · exact le_refl 0
      have h4 : (0 : Int) ≤ (if s.line = 0 then 0 else jsOrI o.spacing 0) := by
        split
        · exact le_refl 0
        · exact hsp
      omega
  · rcases writeText_ctxLineWidth m s text o so with h | h
    · rw [h]; exact hlw
    · rw [h]; exact setLineWidth_pos _ _ hlw

theorem writeLines_fold_trace (m : MeasureFn) (o : WriteOptions)
    (so : StrokeOptions) :
    ∀ (lines : List (List Char)) (s : CanvasWriter) (d : List Draw),
    ∃ new, (lines.foldl (writeStep m o so) (s, d)).2 = d ++ new ∧
      (lines.foldl (writeStep m o so) (s, d)).1.texts.map LineRec.text
        = s.texts.map LineRec.text ++ fillTexts new := by
  intro lines
  induction lines with
  | nil => intro s d; exact ⟨[], by simp, by simp [fillTexts]⟩
  | cons t lines ih =>
    intro s d
    obtain ⟨new, h2, h1⟩ :=
      ih (writeText m s t o so).1 (d ++ (writeText m s t o so).2)
    refine ⟨(writeText m s t o so).2 ++ new, ?_, ?_⟩
    · simp only [List.foldl_cons, writeStep] at h2 ⊢
      rw [h2, List.append_assoc]
    · simp only [List.foldl_cons, writeStep] at h1 ⊢
      rw [h1, writeText_trace m s t o so, fillTexts_append, List.append_assoc]

theorem writeLines_fold_mono (m : MeasureFn) (o : WriteOptions)
    (so : StrokeOptions)
    (hm : ∀ f t, 0 ≤ (m f t).actualBoundingBoxAscent ∧ 0 ≤ (m f t).emHeightDescent)
    (hsp : 0 ≤ jsOrI o.spacing 0) :
    ∀ (lines : List (List Char)) (s : CanvasWriter) (d : List Draw),
    0 < s.ctxLineWidth →
    s.line ≤ (lines.foldl (writeStep m o so) (s, d)).1.line ∧
    0 < (lines.foldl (writeStep m o so) (s, d)).1.ctxLineWidth := by
  intro lines
  induction lines with
  | nil => intro s d h; exact ⟨le_refl _, h⟩
  | cons t lines ih =>
    intro s d h
    have hw := writeText_line_mono m s t o so hm hsp h
    have hrest := ih (writeText m s t o so).1 (d ++ (writeText m s t o so).2) hw.2
    simp only [List.foldl_cons, writeStep]
    exact ⟨le_trans hw.1 hrest.1, hrest.2⟩

theorem cloneFold_trace (m : MeasureFn) :
    ∀ (recs : List LineRec) (s : CanvasWriter) (d : List Draw),
    ∃ new, (recs.foldl (cloneStep m) (s, d)).2 = d ++ new ∧
      (recs.foldl (cloneStep m) (s, d)).1.texts.map LineRec.text
        = s.texts.map LineRec.text ++ fillTexts new := by
  intro recs
  induction recs with
  | nil => intro s d; exact ⟨[], by simp, by simp [fillTexts]⟩
  | cons t recs ih =>
    intro s d
    obtain ⟨new, h2, h1⟩ :=
      ih (writeText m s t.text t.options t.strokeOptions).1
        (d ++ (writeText m s t.text t.options t.strokeOptions).2)
    refine ⟨(writeText m s t.text t.options t.strokeOptions).2 ++ new, ?_, ?_⟩
    · simp only [List.foldl_cons, cloneStep] at h2 ⊢
      rw [h2, List.append_assoc]
    · simp only [List.foldl_cons, cloneStep] at h1 ⊢
      rw [h1, writeText_trace m s t.text t.options t.strokeOptions,
        fillTexts_append, List.append_assoc]

theorem cloneFold_mono (m : MeasureFn)
    (hm : ∀ f t, 0 ≤ (m f t).actualBoundingBoxAscent ∧ 0 ≤ (m f t).emHeightDescent) :
    ∀ (recs : List LineRec) (s : CanvasWriter) (d : List Draw),
    (∀ r ∈ recs, 0 ≤ jsOrI r.options.spacing 0) → 0 < s.ctxLineWidth →
    s.line ≤ (recs.foldl (cloneStep m) (s, d)).1.line ∧
    0 < (recs.foldl (cloneStep m) (s, d)).1.ctxLineWidth := by
  intro recs
  induction recs with
  | nil => intro s d _ h; exact ⟨le_refl _, h⟩
  | cons t recs ih =>
    intro s d hsp h
    have hw := writeText_line_mono m s t.text t.options t.strokeOptions hm
      (hsp t (by simp)) h
    have hrest := ih (writeText m s t.text t.options t.strokeOptions).1
      (d ++ (writeText m s t.text t.options t.strokeOptions).2)
      (fun r hr => hsp r (by simp [hr])) hw.2
    simp only [List.foldl_cons, cloneStep]
    exact ⟨le_trans hw.1 hrest.1, hrest.2⟩

theorem cloneFold_texts_map (m : MeasureFn) :
    ∀ (recs : List LineRec) (dest : CanvasWriter) (d : List Draw),
    (∀ r ∈ recs, jsOrI r.options.maxLines 0 ≤ 0) →
    (recs.foldl (cloneStep m) (dest, d)).1.texts.map LineRec.text
      = dest.texts.map LineRec.text ++ recs.map (fun r => r.text) := by
  intro recs
  induction recs with
  | nil => intro dest d _; simp
  | cons t recs ih =>
    intro dest d hcap
    have hml := hcap t (by simp)
    have hn : ¬ ((dest.texts.length : Int) ≥ jsOrI t.options.maxLines 0 ∧
        jsOrI t.options.maxLines 0 > 0) := by
      intro hcon
      omega
    simp only [List.foldl_cons, cloneStep, List.map_cons]
    rw [ih (writeText m dest t.text t.options t.strokeOptions).1
        (d ++ (writeText m dest t.text t.options t.strokeOptions).2)
        (fun r hr => hcap r (by simp [hr])),
      writeText_texts_map m dest t.text t.options t.strokeOptions hn,
      List.append_assoc]
    rfl

/-! ### C8 and C10: cloneFrom -/

/-- A writer with exactly two recorded lines. -/
def w8 : CanvasWriter := (writeText mConst w4 ['b'] {} {}).1

/-- C8 counterexample: cloning with limit 2 from a source writer holding
only ONE LineRecord appends one record, not two, so the number of
appended records is not independent of the source writer's total line
count. -/
theorem cloneFrom_limit_two_short_source :
    w4.texts.length = 1 ∧
    (cloneFrom mConst (initialWriter 100 100) w4.texts 2).1.texts.length = 1 ∧
    (1 : Nat) ≠ (initialWriter 100 100).texts.length + 2 :=
  ⟨by decide, by decide, by decide⟩

/-- C8 amended: cloneFrom with limit n appends exactly
min(n, source line count) LineRecords — so exactly 2 under limit 2 when
the source has at least 2 — provided none of the cloned records' options
carries a positive maxLines cap; the cloned texts are appended in order
to the destination's own log (each one re-measured and re-positioned by
`writeText` against the destination's own cursor state). -/
theorem cloneFrom_appends_capped_count (m : MeasureFn) (dest : CanvasWriter)
    (srcTexts : List LineRec) (limit : Nat)
    (hcap : ∀ r ∈ srcTexts.take limit, jsOrI r.options.maxLines 0 ≤ 0) :
    (cloneFrom m dest srcTexts limit).1.texts.map LineRec.text
      = dest.texts.map LineRec.text ++ (srcTexts.take limit).map (fun r => r.text) ∧
    (cloneFrom m dest srcTexts limit).1.texts.length
      = dest.texts.length + min limit srcTexts.length := by
  have h := cloneFold_texts_map m (srcTexts.take limit) dest [] hcap
  refine ⟨h, ?_⟩
  have h2 := congrArg List.length h
  simpa [List.length_take] using h2

/-- Closed instance of `cloneFrom_appends_capped_count`: limit 2 against a
two-line source appends exactly two records. -/
theorem cloneFrom_appends_capped_count_witness :
    (∀ r ∈ w8.texts.take 2, jsOrI r.options.maxLines 0 ≤ 0) ∧
    ((cloneFrom mConst (initialWriter 100 100) w8.texts 2).1.texts.map LineRec.text
      = (initialWriter 100 100).texts.map LineRec.text ++
        (w8.texts.take 2).map (fun r => r.text) ∧
     (cloneFrom mConst (initialWriter 100 100) w8.texts 2).1.texts.length
      = (initialWriter 100 100).texts.length + min 2 w8.texts.length) :=
  ⟨by decide,
   cloneFrom_appends_capped_count mConst (initialWriter 100 100) w8.texts 2
     (by decide)⟩

/-- C10 counterexample: a writer IS a legal source for its own cloneFrom
call; replaying one of its own records appends to the very same log, so
the "source" writer's LineRecord list grows from 1 to 2 records — the
source is not left unchanged for every source writer. -/
theorem cloneFrom_self_modifies_source :
    w4.texts.length = 1 ∧
    (cloneFrom mConst w4 w4.texts 1).1.texts.length = 2 :=
  ⟨by decide, by decide⟩

/-- Two distinct writers side by side: the replay
`A.cloneFrom(B, limit)` reads the source log and writes only through
`this.writeText`, i.e. into the destination component. -/
def cloneFromPair (m : MeasureFn) (p : CanvasWriter × CanvasWriter)
    (limit : Nat) : (CanvasWriter × CanvasWriter) × List Draw :=
  (((cloneFrom m p.1 p.2.texts limit).1, p.2), (cloneFrom m p.1 p.2.texts limit).2)

/-- C10 amended: when the destination and the source are distinct writer
objects, cloneFrom leaves the source writer — its log and its cursor —
exactly as it was; only a writer cloning from itself grows its own log
(see the counterexample). -/
theorem cloneFrom_distinct_source_unchanged (m : MeasureFn)
    (p : CanvasWriter × CanvasWriter) (limit : Nat) :
    (cloneFromPair m p limit).1.2 = p.2 ∧
    (cloneFromPair m p limit).1.2.texts = p.2.texts ∧
    (cloneFromPair m p limit).1.2.line = p.2.line :=
  ⟨rfl, rfl, rfl⟩

/-! ### C5 and C7: invariants across whole lifetimes -/

/-- Non-negative ascent and em-descent from the drawing surface — true of
real font metrics, which the writer does not validate. -/
def MetricsNonneg (m : MeasureFn) : Prop :=
  ∀ f t, 0 ≤ (m f t).actualBoundingBoxAscent ∧ 0 ≤ (m f t).emHeightDescent

/-- Non-negative spacing in every WriteOptions an operation carries
(including the recorded options a cloneFrom replays). -/
def opSpacingOk : Op → Prop
  | Op.write _ o _ => 0 ≤ jsOrI o.spacing 0
  | Op.writeLines _ o _ => 0 ≤ jsOrI o.spacing 0
  | Op.wrapped _ _ _ o _ => 0 ≤ jsOrI o.spacing 0
  | Op.wordWrapped _ _ _ o _ => 0 ≤ jsOrI o.spacing 0
  | Op.background _ => True
  | Op.backgroundImage => True
  | Op.cloneFrom srcTexts limit => ∀ r ∈ srcTexts.take limit,
      0 ≤ jsOrI r.options.spacing 0

theorem writeLines_trace (m : MeasureFn) (o : WriteOptions)
    (so : StrokeOptions) (lines : List (List Char)) (s : CanvasWriter) :
    (writeLines m s lines o so).1.texts.map LineRec.text
      = s.texts.map LineRec.text ++ fillTexts (writeLines m s lines o so).2 := by
  obtain ⟨new, h2, h1⟩ := writeLines_fold_trace m o so lines s []
  rw [writeLines, h1, h2, List.nil_append]

theorem cloneFrom_log_trace (m : MeasureFn) (dest : CanvasWriter)
    (srcTexts : List LineRec) (limit : Nat) :
    (cloneFrom m dest srcTexts limit).1.texts.map LineRec.text
      = dest.texts.map LineRec.text ++
        fillTexts (cloneFrom m dest srcTexts limit).2 := by
  obtain ⟨new, h2, h1⟩ := cloneFold_trace m (srcTexts.take limit) dest []
  rw [cloneFrom, h1, h2, List.nil_append]

theorem applyOp_trace (m : MeasureFn) (op : Op) (s s' : CanvasWriter)
    (d : List Draw) (h : applyOp m op s = some (s', d)) :
    s'.texts.map LineRec.text = s.texts.map LineRec.text ++ fillTexts d := by
  cases op with
  | write text o so =>
    simp only [applyOp, Option.some.injEq] at h
    have hs : (writeText m s text o so).1 = s' := congrArg Prod.fst h
    have hd : (writeText m s text o so).2 = d := congrArg Prod.snd h
    rw [← hs, ← hd]
    exact writeText_trace m s text o so
  | writeLines lines o so =>
    simp only [applyOp, Option.some.injEq] at h
    have hs : (writeLines m s lines o so).1 = s' := congrArg Prod.fst h
    have hd : (writeLines m s lines o so).2 = d := congrArg Prod.snd h
    rw [← hs, ← hd]
    exact writeLines_trace m o so lines s
  | wrapped fuel text maxW o so =>
    simp only [applyOp, writeWrappedFuel] at h
    cases hres : reduceToFitFuel
        (fun t => (m (jsOrS o.font "16px serif") t).width) maxW fuel text with
    | none => rw [hres] at h; simp at h
    | some results =>
      rw [hres] at h
      simp only [Option.some.injEq] at h
      have hs : (writeLines m s results o so).1 = s' := congrArg Prod.fst h
      have hd : (writeLines m s results o so).2 = d := congrArg Prod.snd h
      rw [← hs, ← hd]
      exact writeLines_trace m o so results s
  | wordWrapped fuel text maxW o so =>
    simp only [applyOp, writeWordWrappedFuel] at h
    cases hres : splitToFitFuel
        (fun t => (m (jsOrS o.font "16px serif") t).width) maxW fuel text with
    | none => rw [hres] at h; simp at h
    | some results =>
      rw [hres] at h
      simp only [Option.some.injEq] at h
      have hs : (writeLines m s results o so).1 = s' := congrArg Prod.fst h
      have hd : (writeLines m s results o so).2 = d := congrArg Prod.snd h
      rw [← hs, ← hd]
      exact writeLines_trace m o so results s
  | background style =>
    simp only [applyOp, Option.some.injEq] at h
    have hs : s = s' := congrArg Prod.fst h
    have hd : ([Draw.fillRect 0 0 s.cw s.ch style] : List Draw) = d :=
      congrArg Prod.snd h
    rw [← hs, ← hd]
    simp [fillTexts]
  | backgroundImage =>
    simp only [applyOp, Option.some.injEq] at h
    have hs : s = s' := congrArg Prod.fst h
    have hd : ([Draw.drawImage 0 0 s.cw s.ch] : List Draw) = d :=
      congrArg Prod.snd h
    rw [← hs, ← hd]
    simp [fillTexts]
  | cloneFrom srcTexts limit =>
    simp only [applyOp, Option.some.injEq] at h
    have hs : (cloneFrom m s srcTexts limit).1 = s' := congrArg Prod.fst h
    have hd : (cloneFrom m s srcTexts limit).2 = d := congrArg Prod.snd h
    rw [← hs, ← hd]
    exact cloneFrom_log_trace m s srcTexts limit

theorem applyOp_mono (m : MeasureFn) (op : Op) (s s' : CanvasWriter)
    (d : List Draw) (hm : MetricsNonneg m) (hop : opSpacingOk op)
    (hlw : 0 < s.ctxLineWidth) (h : applyOp m op s = some (s', d)) :
    s.line ≤ s'.line ∧ 0 < s'.ctxLineWidth := by
  cases op with
  | write text o so =>
    simp only [applyOp, Option.some.injEq] at h
    have hs : (writeText m s text o so).1 = s' := congrArg Prod.fst h
    rw [← hs]
    exact writeText_line_mono m s text o so hm hop hlw
  | writeLines lines o so =>
    simp only [applyOp, Option.some.injEq] at h
    have hs : (writeLines m s lines o so).1 = s' := congrArg Prod.fst h
    rw [← hs]
    exact writeLines_fold_mono m o so hm hop lines s [] hlw
  | wrapped fuel text maxW o so =>
    simp only [applyOp, writeWrappedFuel] at h
    cases hres : reduceToFitFuel
        (fun t => (m (jsOrS o.font "16px serif") t).width) maxW fuel text with
    | none => rw [hres] at h; simp at h
    | some results =>
      rw [hres] at h
      simp only [Option.some.injEq] at h
      have hs : (writeLines m s results o so).1 = s' := congrArg Prod.fst h
      rw [← hs]
      exact writeLines_fold_mono m o so hm hop results s [] hlw
  | wordWrapped fuel text maxW o so =>
    simp only [applyOp, writeWordWrappedFuel] at h
    cases hres : splitToFitFuel
        (fun t => (m (jsOrS o.font "16px serif") t).width) maxW fuel text with
    | none => rw [hres] at h; simp at h
    | some results =>
      rw [hres] at h
      simp only [Option.some.injEq] at h
      have hs : (writeLines m s results o so).1 = s' := congrArg Prod.fst h
      rw [← hs]
      exact writeLines_fold_mono m o so hm hop results s [] hlw
  | background style =>
    simp only [applyOp, Option.some.injEq] at h
    have hs : s = s' := congrArg Prod.fst h
    rw [← hs]
    exact ⟨le_refl _, hlw⟩
  | backgroundImage =>
    simp only [applyOp, Option.some.injEq] at h
    have hs : s = s' := congrArg Prod.fst h
    rw [← hs]
    exact ⟨le_refl _, hlw⟩
  | cloneFrom srcTexts limit =>
    simp only [applyOp, Option.some.injEq] at h
    have hs : (cloneFrom m s srcTexts limit).1 = s' := congrArg Prod.fst h
    rw [← hs]
    exact cloneFold_mono m hm (srcTexts.take limit) s [] hop hlw

theorem runOps_trace (m : MeasureFn) :
    ∀ (ops : List Op) (s s' : CanvasWriter) (d : List Draw),
    runOps m ops s = some (s', d) →
    s'.texts.map LineRec.text = s.texts.map LineRec.text ++ fillTexts d := by
  intro ops
  induction ops with
  | nil =>
    intro s s' d h
    simp only [runOps, Option.some.injEq] at h
    have hs : s = s' := congrArg Prod.fst h
    have hd : ([] : List Draw) = d := congrArg Prod.snd h
    rw [← hs, ← hd]
    simp [fillTexts]
  | cons op ops ih =>
    intro s s' d h
    simp only [runOps] at h
    cases hap : applyOp m op s with
    | none => rw [hap] at h; simp at h
    | some sd =>
      obtain ⟨s1, d1⟩ := sd
      rw [hap] at h
      have h2 : (match runOps m ops s1 with
                 | none => none
                 | some (s2, d2) => some (s2, d1 ++ d2)) = some (s', d) := h
      cases hrun : runOps m ops s1 with
      | none => rw [hrun] at h2; simp at h2
      | some sd2 =>
        obtain ⟨s2, d2⟩ := sd2
        rw [hrun] at h2
        have h3 : some ((s2, d1 ++ d2) : CanvasWriter × List Draw)
            = some (s', d) := h2
        simp only [Option.some.injEq, Prod.mk.injEq] at h3
        obtain ⟨rfl, rfl⟩ := h3
        rw [fillTexts_append, ih s1 s2 d2 hrun, applyOp_trace m op s s1 d1 hap,
          List.append_assoc]

theorem runOps_mono (m : MeasureFn) (hm : MetricsNonneg m) :
    ∀ (ops : List Op) (s s' : CanvasWriter) (d : List Draw),
    (∀ op ∈ ops, opSpacingOk op) → 0 < s.ctxLineWidth →
    runOps m ops s = some (s', d) →
    s.line ≤ s'.line ∧ 0 < s'.ctxLineWidth := by
  intro ops
  induction ops with
  | nil =>
    intro s s' d _ hlw h
    simp only [runOps, Option.some.injEq] at h
    have hs : s = s' := congrArg Prod.fst h
    rw [← hs]
    exact ⟨le_refl _, hlw⟩
  | cons op ops ih =>
    intro s s' d hops hlw h
    simp only [runOps] at h
    cases hap : applyOp m op s with
    | none => rw [hap] at h; simp at h
    | some sd =>
      obtain ⟨s1, d1⟩ := sd
      rw [hap] at h
      have h2 : (match runOps m ops s1 with
                 | none => none
                 | some (s2, d2) => some (s2, d1 ++ d2)) = some (s', d) := h
      cases hrun : runOps m ops s1 with
      | none => rw [hrun] at h2; simp at h2
      | some sd2 =>
        obtain ⟨s2, d2⟩ := sd2
        rw [hrun] at h2
        have h3 : some ((s2, d1 ++ d2) : CanvasWriter × List Draw)
            = some (s', d) := h2
        simp only [Option.some.injEq, Prod.mk.injEq] at h3
        obtain ⟨rfl, rfl⟩ := h3
        have hstep := applyOp_mono m op s s1 d1 hm (hops op (by simp)) hlw hap
        have hrest := ih s1 s2 d2 (fun o ho => hops o (by simp [ho])) hstep.2 hrun
        exact ⟨le_trans hstep.1 hrest.1, hrest.2⟩

/-- C5 counterexample: a negative spacing option makes a writeText call
decrease the cursor.  On a writer whose cursor is already at 3, writing
with spacing -100 moves the cursor to -94 < 3, so the cursor is not
monotonically non-decreasing for all option values. -/
theorem cursor_decreases_on_negative_spacing :
    w4.line = 3 ∧
    (writeText mConst w4 ['b'] { spacing := some (-100) } {}).1.line < w4.line :=
  ⟨by decide, by decide⟩

/-- C5 amended: the cursor starts at zero, and it is monotonically
non-decreasing across every successful sequence of operations provided
the surface's metrics are non-negative and every spacing option involved
is non-negative (the writer does not validate either; a negative spacing
or metric moves the cursor backwards, see the counterexample).  The
context line width is positive initially and stays positive, so the
stroke-width contribution never decreases the cursor. -/
theorem cursor_starts_zero_and_nondecreasing (m : MeasureFn) (ops : List Op)
    (s s' : CanvasWriter) (d : List Draw) (hm : MetricsNonneg m)
    (hops : ∀ op ∈ ops, opSpacingOk op) (hlw : 0 < s.ctxLineWidth)
    (hrun : runOps m ops s = some (s', d)) :
    (∀ cw ch, (initialWriter cw ch).line = 0 ∧
      0 < (initialWriter cw ch).ctxLineWidth) ∧
    s.line ≤ s'.line ∧ 0 < s'.ctxLineWidth :=
  ⟨fun _ _ => ⟨rfl, zero_lt_one⟩, runOps_mono m hm ops s s' d hops hlw hrun⟩

/-- Operation list used by the lifetime witnesses: one plain write and a
background fill. -/
def ops5 : List Op := [Op.write ['a'] {} {}, Op.background "bg"]

/-- Draw trace of `ops5` on a fresh 100-by-100 writer. -/
def d5 : List Draw := [Draw.fillText ['a'] 6 7, Draw.fillRect 0 0 100 100 "bg"]

/-- Closed instance of `cursor_starts_zero_and_nondecreasing` on the run
`ops5` from a fresh writer. -/
theorem cursor_starts_zero_and_nondecreasing_witness :
    (MetricsNonneg mConst ∧ (∀ op ∈ ops5, opSpacingOk op) ∧
     0 < (initialWriter 100 100).ctxLineWidth ∧
     runOps mConst ops5 (initialWriter 100 100) = some (w4, d5)) ∧
    ((∀ cw ch, (initialWriter cw ch).line = 0 ∧
       0 < (initialWriter cw ch).ctxLineWidth) ∧
     (initialWriter 100 100).line ≤ w4.line ∧ 0 < w4.ctxLineWidth) :=
  ⟨⟨fun _ _ => ⟨(by decide : (0 : Int) ≤ 2), (by decide : (0 : Int) ≤ 1)⟩,
    by simp [ops5, opSpacingOk, jsOrI],
    by decide, by decide⟩,
   cursor_starts_zero_and_nondecreasing mConst ops5 (initialWriter 100 100)
     w4 d5 (fun _ _ => ⟨(by decide : (0 : Int) ≤ 2), (by decide : (0 : Int) ≤ 1)⟩)
     (by simp [ops5, opSpacingOk, jsOrI]) (by decide) (by decide)⟩

/-- C7: at every point of a writer's lifetime — after any successful run
of operations from a fresh writer — toString returns exactly the
newline-join of the texts of the recorded LineRecords in insertion order;
moreover those recorded texts coincide, in order, with the texts of the
fillText draw calls the lifetime issued, so the log is append-only and
reflects exactly the lines written. -/
theorem toString_newline_join_of_log (m : MeasureFn) (ops : List Op)
    (cw ch : Int) (s : CanvasWriter) (d : List Draw)
    (hrun : runOps m ops (initialWriter cw ch) = some (s, d)) :
    wToString s = joinCh '\n' (s.texts.map LineRec.text) ∧
    s.texts.map LineRec.text = fillTexts d := by
  refine ⟨rfl, ?_⟩
  have h := runOps_trace m ops (initialWriter cw ch) s d hrun
  simpa [initialWriter] using h

/-- Closed instance of `toString_newline_join_of_log` on the run `ops5`. -/
theorem toString_newline_join_of_log_witness :
    runOps mConst ops5 (initialWriter 100 100) = some (w4, d5) ∧
    (wToString w4 = joinCh '\n' (w4.texts.map LineRec.text) ∧
     w4.texts.map LineRec.text = fillTexts d5) :=
  ⟨by decide,
   toString_newline_join_of_log mConst ops5 100 100 w4 d5 (by decide)⟩
